import Mathlib

/-!
Verification development for the hubris elaborator and constraint solver
(`src/hubris/elaborate/mod.rs`, `src/hubris/typeck/solver.rs`).

The repository ships the elaborator and the solver, but not the `core` term
crate, the `hubris_syntax` AST crate, nor `typeck/constraint.rs`.  Those
missing parts are modelled from the specification (`spec.md`); every such
definition carries a doc comment starting `Modelled from the spec:`.
Definitions whose source is present transcribe the Rust line by line.
Source spans are dropped throughout: the spec states that name and term
equality ignores spans and that `set_span` is observational only.
-/

namespace Hubris

/-- Modelled from the spec: core literals, `Unit | Int(i64)` (§3.2).  The
Rust `i64` is modelled as `Int` (no claim exercises overflow). -/
inductive Literal where
  | unit
  | int (i : Int)
  deriving DecidableEq, Repr

/-- Modelled from the spec: the core term language (§3.2).  The spec leaves
the binder representation free (§9 "Binder representation") and describes
`abstract_*` as replacing each local occurrence "by the appropriate bound
index", so bound variables under binders are de Bruijn indices (`bound`),
while free occurrences of globals, locals and metas are the three `Var`
forms, inlined as `qualv`, `lclv`, `metav` (a `Var(name)` node carrying a
`Name::Qual`, `Name::Local` or `Name::Meta`).  A binder `{name, ty}` is
inlined as the printable representation plus the type. -/
inductive Term where
  | typeU
  | lit (l : Literal)
  | bound (idx : Nat)
  | qualv (components : List String)
  | lclv (number : Nat) (repr : String) (ty : Term)
  | metav (number : Nat) (ty : Term)
  | app (f a : Term)
  | lambda (nm : String) (ty : Term) (body : Term)
  | pi (nm : String) (ty : Term) (body : Term)
  deriving DecidableEq, Repr

/-- Modelled from the spec: `Name` (§3.1), one of `Qualified`, `Local`
(printable representation plus a fresh numeric identity; the minted type is
carried with it, as `TyCtxt.local_with_repr` records it), or `Meta`
(monotonic number and boxed type).  `Anonymous/Placeholder` exists only
before elaboration and therefore only in the AST model. -/
inductive Name where
  | qual (components : List String)
  | lcl (number : Nat) (repr : String) (ty : Term)
  | meta (number : Nat) (ty : Term)
  deriving DecidableEq, Repr

namespace Name

/-- Modelled from the spec: `is_meta` (§3.1). -/
def is_meta : Name → Bool
  | .meta _ _ => true
  | _ => false

/-- Modelled from the spec: `is_local` (§3.1). -/
def is_local : Name → Bool
  | .lcl _ _ _ => true
  | _ => false

/-- Modelled from the spec: `Name::to_term`, wrapping a name as a `Var`
term (used as `meta.to_term()`, `Name::to_term` on locals). -/
def to_term : Name → Term
  | .qual cs => .qualv cs
  | .lcl n r ty => .lclv n r ty
  | .meta n ty => .metav n ty

end Name

namespace Term

/-- The `Var` node's name, if the term is a `Var`. -/
def asVarName : Term → Option Name
  | .qualv cs => some (.qual cs)
  | .lclv n r ty => some (.lcl n r ty)
  | .metav n ty => some (.meta n ty)
  | _ => none

/-- Modelled from the spec: `apply_all(f, args)`, left-associative
application (§3.2). -/
def apply_all (f : Term) (args : List Term) : Term :=
  args.foldl .app f

/-- Modelled from the spec: `head()`, the leftmost head of an application
spine (§3.2); `None` on binders, literals and `Type`, the term itself on a
bare `Var`. -/
def head : Term → Option Term
  | .app f _ => f.head
  | .qualv cs => some (.qualv cs)
  | .lclv n r ty => some (.lclv n r ty)
  | .metav n ty => some (.metav n ty)
  | .bound i => some (.bound i)
  | _ => none

/-- Modelled from the spec: `args()`, the application spine (§3.2);
`None` on a non-application. -/
def args : Term → Option (List Term)
  | .app f a => some ((f.args).getD [] ++ [a])
  | _ => none

/-- Modelled from the spec: `head_is_local` (§3.2). -/
def head_is_local (t : Term) : Bool :=
  match t.head with
  | some (.lclv _ _ _) => true
  | _ => false

/-- Modelled from the spec: `head_is_global` (§3.2). -/
def head_is_global (t : Term) : Bool :=
  match t.head with
  | some (.qualv _) => true
  | _ => false

/-- Modelled from the spec: `is_stuck()` returns the meta blocking the
term, i.e. the head when the head is a meta (§3.2); the "head's reduction
is blocked by one" refinement needs the recursor machinery that is outside
the modelled fragment. -/
def is_stuck (t : Term) : Option Name :=
  match t.head with
  | some (.metav n ty) => some (.meta n ty)
  | _ => none

/-- Modelled from the spec: `is_forall()` (§3.2). -/
def is_forall : Term → Bool
  | .pi _ _ _ => true
  | _ => false

/-- Modelled from the spec: `is_lambda()` (§3.2). -/
def is_lambda : Term → Bool
  | .lambda _ _ _ => true
  | _ => false

/-- A term node is a meta variable (`Term::is_meta`, used by `simplify` on
spine arguments). -/
def is_meta : Term → Bool
  | .metav _ _ => true
  | _ => false

/-- Close over one free variable: replace `x`'s `Var` occurrence at
binder depth `d` by the bound index `d` (helper for `abstract_*`). -/
def closeVar (x : Name) (d : Nat) : Term → Term
  | .typeU => .typeU
  | .lit l => .lit l
  | .bound i => .bound i
  | .qualv cs => if x = .qual cs then .bound d else .qualv cs
  | .lclv n r ty => if x = .lcl n r ty then .bound d else .lclv n r (closeVar x d ty)
  | .metav n ty => if x = .meta n ty then .bound d else .metav n (closeVar x d ty)
  | .app f a => .app (closeVar x d f) (closeVar x d a)
  | .lambda nm ty b => .lambda nm (closeVar x d ty) (closeVar x (d + 1) b)
  | .pi nm ty b => .pi nm (closeVar x d ty) (closeVar x (d + 1) b)

/-- Open a binder body: replace bound index `d` by `a` (indices above `d`
step down one binder).  Helper for `instantiate`. -/
def openBound (a : Term) (d : Nat) : Term → Term
  | .typeU => .typeU
  | .lit l => .lit l
  | .bound i => if i = d then a else if d < i then .bound (i - 1) else .bound i
  | .qualv cs => .qualv cs
  | .lclv n r ty => .lclv n r (openBound a d ty)
  | .metav n ty => .metav n (openBound a d ty)
  | .app f b => .app (openBound a d f) (openBound a d b)
  | .lambda nm ty b => .lambda nm (openBound a d ty) (openBound a (d + 1) b)
  | .pi nm ty b => .pi nm (openBound a d ty) (openBound a (d + 1) b)

/-- Modelled from the spec: `instantiate(&local)` β-substitutes the
outermost bound variable of a λ/Π body (§3.2, §4.1); as in the solver's
call sites it acts on the body with the binder already removed. -/
def instantiate (body a : Term) : Term :=
  openBound a 0 body

/-- The printable representation and the recorded type of a local used as
a binder (`Binder {name, ty}` reconstructed from a `Name`). -/
def binderOf (l : Name) : String × Term :=
  match l with
  | .lcl _ r ty => (r, ty)
  | .qual _ => ("", .typeU)
  | .meta _ ty => ("", ty)

/-- Modelled from the spec: `abstract_lambda(locals, t)` abstracts the
locals out of `t` left-to-right, the first local becoming the outermost
binder, each binder type being the type recorded for the local (§4.1). -/
def abstract_lambda : List Name → Term → Term
  | [], t => t
  | l :: ls, t =>
      .lambda (binderOf l).1 (binderOf l).2 (closeVar l 0 (abstract_lambda ls t))

/-- Modelled from the spec: `abstract_pi(locals, t)`, the Π counterpart of
`abstract_lambda` (§4.1). -/
def abstract_pi : List Name → Term → Term
  | [], t => t
  | l :: ls, t =>
      .pi (binderOf l).1 (binderOf l).2 (closeVar l 0 (abstract_pi ls t))

/-- Modelled from the spec: `instantiate_meta(&name, &t)` replaces every
occurrence of the meta variable `m` by `t` (§3.2). -/
def instantiate_meta (r : Term) (m : Name) (t : Term) : Term :=
  match r with
  | .typeU => .typeU
  | .lit l => .lit l
  | .bound i => .bound i
  | .qualv cs => .qualv cs
  | .lclv n rp ty => .lclv n rp (instantiate_meta ty m t)
  | .metav n ty => if Name.meta n ty = m then t else .metav n (instantiate_meta ty m t)
  | .app f a => .app (instantiate_meta f m t) (instantiate_meta a m t)
  | .lambda nm ty b => .lambda nm (instantiate_meta ty m t) (instantiate_meta b m t)
  | .pi nm ty b => .pi nm (instantiate_meta ty m t) (instantiate_meta b m t)

/-- Whether a meta variable occurs anywhere in the term (used by the
`categorize` model's groundedness test). -/
def hasMeta : Term → Bool
  | .typeU => false
  | .lit _ => false
  | .bound _ => false
  | .qualv _ => false
  | .lclv _ _ ty => hasMeta ty
  | .metav _ _ => true
  | .app f a => hasMeta f || hasMeta a
  | .lambda _ ty b => hasMeta ty || hasMeta b
  | .pi _ ty b => hasMeta ty || hasMeta b

end Term

/-- Modelled from the spec: the fragment of `TyCtxt` (§3.6, §4.2) the
solver and elaborator consume — the δ-reducible definition bodies backing
`eval` / `is_bi_reducible`, the set of declared qualified names backing
`in_scope` / `declare_*`, the loadable import names backing `load_import`,
and the fresh-local counter backing `local_with_repr`.  The source map,
terminal and recursor synthesis are outside the modelled fragment. -/
structure TyCtxt where
  definitions : List (List String × Term)
  declarations : List Name
  importable : List (List String)
  next_local : Nat
  deriving DecidableEq, Repr

namespace TyCtxt

/-- Modelled from the spec: `local_with_repr(repr, ty)` mints a fresh
local whose identity never collides with a previously minted one (§4.2). -/
def local_with_repr (cx : TyCtxt) (repr : String) (ty : Term) : Name × TyCtxt :=
  (.lcl cx.next_local repr ty, { cx with next_local := cx.next_local + 1 })

/-- Modelled from the spec: `in_scope(name)` (§4.2), membership among the
declared names. -/
def in_scope (cx : TyCtxt) (n : Name) : Bool :=
  cx.declarations.contains n

/-- Modelled from the spec: one weak-head β/δ step, if the term can take
one (§4.2 `eval`, `is_bi_reducible`); ι-steps need the recursor machinery
outside the modelled fragment. -/
def stepOpt (cx : TyCtxt) : Term → Option Term
  | .app f a =>
      match f with
      | .lambda _ _ body => some (body.instantiate a)
      | _ => (stepOpt cx f).map (fun f' => .app f' a)
  | .qualv cs => (cx.definitions.lookup cs).map id
  | _ => none

/-- Modelled from the spec: `is_bi_reducible(&Term)` is true iff the term
can take one β/ι/δ step (§4.2). -/
def is_bi_reducible (cx : TyCtxt) (t : Term) : Bool :=
  (cx.stepOpt t).isSome

/-- Whether a qualified head is δ-reducible (`Name::is_bi_reducible`, used
on the head in `simplify`'s rigid-rigid global case). -/
def name_is_bi_reducible (cx : TyCtxt) (n : Name) : Bool :=
  match n with
  | .qual cs => (cx.definitions.lookup cs).isSome
  | _ => false

end TyCtxt

/-- Modelled from the spec: the solver-level error payload carried by
`eval` failures; the spec bounds δ-unfolding by a constant (§5). -/
inductive EvalError where
  | depthExceeded
  deriving DecidableEq, Repr

/-- Modelled from the spec: `eval(&Term)` reduces with a bounded unfolding
depth, "a small constant, e.g., 128" (§5), failing on exceedance. -/
def TyCtxt.evalFuel (cx : TyCtxt) : Nat → Term → Except EvalError Term
  | 0, _ => .error .depthExceeded
  | fuel + 1, t =>
      match cx.stepOpt t with
      | none => .ok t
      | some t' => cx.evalFuel fuel t'

/-- Modelled from the spec: `TyCtxt::eval` with the spec's suggested depth
bound of 128 (§5). -/
def TyCtxt.evalT (cx : TyCtxt) (t : Term) : Except EvalError Term :=
  cx.evalFuel 128 t

/-- Modelled from the spec: `AssertedBy` (§3.4), spans dropped. -/
inductive AssertedBy where
  | application (t_fun_ty t_arg_ty : Term)
  | expectedFound (inferred declared : Term)
  deriving DecidableEq, Repr

/-- Modelled from the spec: `Justification`, a rose tree of reasons
(§3.4). -/
inductive Justification where
  | asserted (by_ : AssertedBy)
  | assumption
  | join (j1 j2 : Justification)
  deriving DecidableEq, Repr

/-- `Justification::join`. -/
def Justification.joinJ (j1 j2 : Justification) : Justification :=
  .join j1 j2

/-- Modelled from the spec: `ConstraintCategory` (§3.5). -/
inductive ConstraintCategory where
  | resolved
  | pattern
  | flexRigid
  | flexFlex
  | ready
  | regular
  | postponed
  deriving DecidableEq, Repr

/-- Modelled from the spec: constraints, `Unification(t, u, j)` or the
reserved `Choice` (§3.5; its payload is unimplemented in the source). -/
inductive Constraint where
  | unification (t u : Term) (j : Justification)
  | choice
  deriving DecidableEq, Repr

/-- A categorized constraint (§3.5). -/
structure CategorizedConstraint where
  category : ConstraintCategory
  constraint : Constraint
  deriving DecidableEq, Repr

/-- Modelled from the spec: the term is `?m l_1 … l_k` with the `l_i`
distinct local variables (§4.4 `categorize`, Pattern case). -/
def Term.isPatternShaped (t : Term) : Bool :=
  match t.head with
  | some (.metav _ _) =>
      let sp := (t.args).getD []
      sp.all (fun a => match a with | .lclv _ _ _ => true | _ => false)
        && sp.Nodup
  | _ => false

/-- The head is a meta variable. -/
def Term.headIsMeta (t : Term) : Bool :=
  match t.head with
  | some (.metav _ _) => true
  | _ => false

/-- Modelled from the spec: `categorize` (§4.4): grounded spines with
equal heads are `Ready`; exactly one pattern-shaped side is `Pattern`;
two meta heads are `FlexFlex`; one meta head is `FlexRigid`; otherwise
`Regular`.  `Choice` constraints carry no specified category; `Regular`
is used. -/
def Constraint.categorize (c : Constraint) : CategorizedConstraint :=
  match c with
  | .choice => ⟨.regular, c⟩
  | .unification t u _ =>
      let cat : ConstraintCategory :=
        if ((t.args).getD []).all (fun a => !a.hasMeta)
            && ((u.args).getD []).all (fun a => !a.hasMeta)
            && !t.headIsMeta && !u.headIsMeta && t.head = u.head then .ready
        else if t.isPatternShaped ≠ u.isPatternShaped then .pattern
        else if t.headIsMeta && u.headIsMeta then .flexFlex
        else if t.headIsMeta || u.headIsMeta then .flexRigid
        else .regular
      ⟨cat, c⟩

/-- Modelled from the spec: the priority rank of a category, "Pattern >
FlexRigid > Regular > FlexFlex > Postponed" (§4.4); the safety-net
categories sort with the most actionable. -/
def ConstraintCategory.rank : ConstraintCategory → Nat
  | .resolved => 6
  | .ready => 6
  | .pattern => 5
  | .flexRigid => 4
  | .regular => 3
  | .flexFlex => 2
  | .postponed => 1

/-- `Solver::Error` (solver.rs:27-32); `fatal` models a `panic!` or a
failed `assert!`/`unwrap`, and `TypeCk` wraps `eval`'s failures
(solver.rs:34-38). -/
inductive SError where
  | simplification (j : Justification)
  | justification (j : Justification)
  | typeCk (e : EvalError)
  | fatal (msg : String)
  deriving DecidableEq, Repr

/-- Association-list lookup, the model of `HashMap::get`. -/
def lookupAL {α β : Type} [DecidableEq α] : List (α × β) → α → Option β
  | [], _ => none
  | (k, v) :: rest, a => if k = a then some v else lookupAL rest a

/-- Association-list removal, the model of `HashMap::remove`. -/
def eraseAL {α β : Type} [DecidableEq α] : List (α × β) → α → List (α × β)
  | [], _ => []
  | (k, v) :: rest, a => if k = a then eraseAL rest a else (k, v) :: eraseAL rest a

/-- Association-list insertion, the model of `HashMap::insert`
(replacing any previous binding of the key). -/
def insertAL {α β : Type} [DecidableEq α] (l : List (α × β)) (k : α) (v : β) : List (α × β) :=
  (k, v) :: eraseAL l k

/-- The solver's solution map, `HashMap<Name, (Term, Justification)>`. -/
abbrev SolutionMap := List (Name × (Term × Justification))

/-- `replace_metavars` (solver.rs:422-457): every `Var(Meta m)` is replaced
by its recorded solution, a missing solution is a panic, binder types are
substituted, other leaves are identity. -/
def replace_metavars (t : Term) (subst_map : SolutionMap) : Except SError Term :=
  match t with
  | .app f a => do
      let f' ← replace_metavars f subst_map
      let a' ← replace_metavars a subst_map
      .ok (.app f' a')
  | .pi nm ty b => do
      let ty' ← replace_metavars ty subst_map
      let b' ← replace_metavars b subst_map
      .ok (.pi nm ty' b')
  | .lambda nm ty b => do
      let ty' ← replace_metavars ty subst_map
      let b' ← replace_metavars b subst_map
      .ok (.lambda nm ty' b')
  | .metav n ty =>
      match lookupAL subst_map (.meta n ty) with
      | none => .error (.fatal "no solution found for meta")
      | some x => .ok x.1
  | v => .ok v

/-- `Solver::eval_justification` (solver.rs:334-360): substitute every
known meta solution into the justification's terms and normalize them. -/
def eval_justification (cx : TyCtxt) (sols : SolutionMap) :
    Justification → Except SError Justification
  | .asserted by_ =>
      match by_ with
      | .application t u => do
          let t' ← replace_metavars t sols
          let t'' ← match cx.evalT t' with
                    | .error e => .error (SError.typeCk e)
                    | .ok x => .ok x
          let u' ← replace_metavars u sols
          let u'' ← match cx.evalT u' with
                    | .error e => .error (SError.typeCk e)
                    | .ok x => .ok x
          .ok (.asserted (.application t'' u''))
      | .expectedFound t u => do
          let t' ← replace_metavars t sols
          let t'' ← match cx.evalT t' with
                    | .error e => .error (SError.typeCk e)
                    | .ok x => .ok x
          let u' ← replace_metavars u sols
          let u'' ← match cx.evalT u' with
                    | .error e => .error (SError.typeCk e)
                    | .ok x => .ok x
          .ok (.asserted (.expectedFound t'' u''))
  | .assumption => .ok .assumption
  | .join j1 j2 => do
      let j1' ← eval_justification cx sols j1
      let j2' ← eval_justification cx sols j2
      .ok (.join j1' j2')

/-- The case analysis of `Solver::simplify` (solver.rs:216-329),
parameterized over the recursive calls `recS` (simplify) and `recL` (the
spine fold): reflexivity, head reduction (left first), rigid-rigid local
decomposition, rigid-rigid global (panic when unfolding would be needed,
pointwise decomposition when the head is not reducible, panic when it is
reducible but a spine holds metas — the source's
`if f && tf && uf … else if !f … else …` chain, with the shared
`f.is_bi_reducible()` test factored out), Π-Π decomposition under a
freshly minted shared local, and the final stuck-or-mismatch case.
`fatal` models each `panic!` and `unwrap`; `sols` is the solver's current
solution map, read only by `eval_justification` on the mismatch path; the
minted-local counter in `cx` threads through. -/
def simplifyBody
    (recS : TyCtxt → SolutionMap → Term → Term → Justification →
      Except SError (List CategorizedConstraint × TyCtxt))
    (recL : TyCtxt → SolutionMap → List (Term × Term) → Justification →
      Except SError (List CategorizedConstraint × TyCtxt))
    (cx : TyCtxt) (sols : SolutionMap) (t u : Term) (j : Justification) :
    Except SError (List CategorizedConstraint × TyCtxt) :=
  if t = u then .ok ([], cx)
  else if cx.is_bi_reducible t then
    match cx.evalT t with
    | .error e => .error (.typeCk e)
    | .ok t' => recS cx sols t' u j
  else if cx.is_bi_reducible u then
    match cx.evalT u with
    | .error e => .error (.typeCk e)
    | .ok u' => recS cx sols t u' j
  else if t.head_is_local && u.head_is_local && t.head = u.head then
    match t.args, u.args with
    | some ta, some ua => recL cx sols (ta.zip ua) j
    | _, _ => .error (.fatal "unwrap of None args")
  else if t.head_is_global && u.head_is_global && t.head = u.head then
    match t.head with
    | some f =>
        match f.asVarName with
        | some fname =>
            let t_args_meta_free :=
              ((t.args).map (fun as_ => as_.all (fun a => !a.is_meta))).getD false
            let u_args_meta_free :=
              ((u.args).map (fun as_ => as_.all (fun a => !a.is_meta))).getD false
            if cx.name_is_bi_reducible fname then
              if t_args_meta_free && u_args_meta_free then
                .error (.fatal "var are free")
              else .error (.fatal "f is reducible but metavars are ")
            else
              match t.args, u.args with
              | some ta, some ua =>
                  .ok ((ta.zip ua).map
                    (fun p => (Constraint.unification p.1 p.2 j).categorize), cx)
              | _, _ => .error (.fatal "unwrap of None args")
        | none => .error (.fatal "global head is not a Var")
    | none => .error (.fatal "unwrap of None head")
  else if t.is_forall && u.is_forall then
    match t, u with
    | .pi nm1 ty1 term1, .pi _nm2 ty2 term2 =>
        match cx.local_with_repr nm1 ty1 with
        | (l, cx1) =>
          match recS cx1 sols ty1 ty2 j with
          | .error e => .error e
          | .ok (arg_cs, cx2) =>
              match recS cx2 sols (term1.instantiate l.to_term)
                      (term2.instantiate l.to_term) j with
              | .error e => .error e
              | .ok (body_cs, cx3) => .ok (arg_cs ++ body_cs, cx3)
    | _, _ => .error (.fatal "this should be impossible")
  else
    if t.is_stuck.isSome || u.is_stuck.isSome then
      .ok ([(Constraint.unification t u j).categorize], cx)
    else
      match eval_justification cx sols j with
      | .error e => .error e
      | .ok j' => .error (.justification j')

mutual

/-- `Solver::simplify`: the case analysis of `simplifyBody` driven by
fuel, as the Rust recursion has no syntactic bound. -/
def simplify (fuel : Nat) (cx : TyCtxt) (sols : SolutionMap) (t u : Term)
    (j : Justification) : Except SError (List CategorizedConstraint × TyCtxt) :=
  match fuel with
  | 0 => .error (.fatal "simplify: out of fuel")
  | fuel + 1 => simplifyBody (simplify fuel) (simplifySpines fuel) cx sols t u j
termination_by structural fuel

/-- The pointwise fold of `simplify` over two zipped spines
(solver.rs:246-250), concatenating the produced constraints. -/
def simplifySpines (fuel : Nat) (cx : TyCtxt) (sols : SolutionMap)
    (ps : List (Term × Term)) (j : Justification) :
    Except SError (List CategorizedConstraint × TyCtxt) :=
  match fuel, ps with
  | _, [] => .ok ([], cx)
  | 0, _ :: _ => .error (.fatal "simplify: out of fuel")
  | fuel + 1, (s, r) :: rest =>
      match simplify fuel cx sols s r j with
      | .error e => .error e
      | .ok (cs1, cx1) =>
          match simplifySpines fuel cx1 sols rest j with
          | .error e => .error e
          | .ok (cs2, cx2) => .ok (cs1 ++ cs2, cx2)
termination_by structural fuel

end

/-- The solver state: the priority queue (a list kept sorted by
decreasing category rank, FIFO among equal ranks — the spec's
`(category_rank, sequence_number)` min-heap, §9), the parked-constraint
map, the solution map and the typing context (solver.rs:19-25). -/
structure SolverSt where
  constraints : List CategorizedConstraint
  constraint_mapping : List (Name × List CategorizedConstraint)
  solution_mapping : SolutionMap
  ty_cx : TyCtxt
  deriving Repr

/-- Push onto the priority queue: insert before the first strictly
lower-ranked entry, after equal ranks (FIFO tie-break). -/
def pushQ (c : CategorizedConstraint) : List CategorizedConstraint → List CategorizedConstraint
  | [] => [c]
  | d :: ds =>
      if d.category.rank < c.category.rank then c :: d :: ds else d :: pushQ c ds

/-- `Solver::solution_for` (solver.rs:107-109). -/
def solution_for (st : SolverSt) (n : Name) : Option (Term × Justification) :=
  lookupAL st.solution_mapping n

/-- The pivot-meta choice opening `visit_unification` (solver.rs:120-132):
with both sides stuck prefer the already-solved meta of the left side,
with one side stuck take its meta, with neither stuck panic. -/
def pivotMeta (st : SolverSt) (r s : Term) : Except SError Name :=
  match r.is_stuck, s.is_stuck with
  | some m1, some m2 => .ok (if (solution_for st m1).isSome then m1 else m2)
  | some m, none => .ok m
  | none, some m => .ok m
  | none, none =>
      .error (.fatal "one of these should be stuck otherwise the constraint should be gone already I think?")

/-- The `filter_map` of the pattern case (solver.rs:170-176): local `Var`
arguments survive, non-local `Var` arguments are dropped, anything else
panics. -/
def filterLocalArgs : List Term → Except SError (List Name)
  | [] => .ok []
  | a :: rest =>
      match a with
      | .lclv n r ty => (filterLocalArgs rest).map (fun ns => Name.lcl n r ty :: ns)
      | .qualv _ => filterLocalArgs rest
      | .metav _ _ => filterLocalArgs rest
      | _ => .error (.fatal "mis-idetnfied pattern constraint")

mutual

/-- `Solver::visit_unification` (solver.rs:111-214): choose the pivot
meta; if it is solved, substitute the solution on both sides, re-simplify
and visit the results; otherwise in the `Pattern` category read the meta
and spine off the left head (falling back to the right), drop non-local
spine arguments, record `?m ↦ λ(surviving locals). s` and re-visit every
constraint parked under `m`; otherwise park the constraint under the
pivot and push it onto the queue.  Fuelled as in `simplify`. -/
def visit_unification (fuel : Nat) (r s : Term) (j : Justification)
    (category : ConstraintCategory) (st : SolverSt) : Except SError SolverSt :=
  match fuel with
  | 0 => .error (.fatal "visit_unification: out of fuel")
  | fuel + 1 =>
    match pivotMeta st r s with
    | .error e => .error e
    | .ok meta =>
      match solution_for st meta with
      | some (t, j_m) =>
          match simplify fuel st.ty_cx st.solution_mapping
                  (r.instantiate_meta meta t) (s.instantiate_meta meta t)
                  (j.joinJ j_m) with
          | .error e => .error e
          | .ok (simp_c, cx') => visitList fuel simp_c { st with ty_cx := cx' }
      | none =>
        if category = .pattern then
          match (r.head).orElse (fun _ => s.head) with
          | none => .error (.fatal "unwrap of None head")
          | some hd =>
            match hd.asVarName with
            | none => .error (.fatal "mis-idetnfied pattern constraint")
            | some metaName =>
              let locals := (r.args).getD []
              match filterLocalArgs locals with
              | .error e => .error e
              | .ok survivors =>
                if metaName.is_meta then
                  let solution := Term.abstract_lambda survivors s
                  let st' := { st with
                    solution_mapping := insertAL st.solution_mapping metaName (solution, j) }
                  let cs := (lookupAL st'.constraint_mapping metaName).getD []
                  visitList fuel cs st'
                else .error (.fatal "assertion failed: meta.is_meta()")
        else
          let cat_constraint : CategorizedConstraint :=
            ⟨category, .unification r s j⟩
          let cs := (lookupAL st.constraint_mapping meta).getD []
          .ok { st with
            constraint_mapping :=
              insertAL (eraseAL st.constraint_mapping meta) meta (cs ++ [cat_constraint]),
            constraints := pushQ cat_constraint st.constraints }
termination_by structural fuel

/-- `Solver::visit` (solver.rs:93-105): dispatch a categorized constraint;
choice constraints panic. -/
def visit (fuel : Nat) (c : CategorizedConstraint) (st : SolverSt) :
    Except SError SolverSt :=
  match fuel with
  | 0 => .error (.fatal "visit: out of fuel")
  | fuel + 1 =>
    match c.constraint with
    | .unification t u j => visit_unification fuel t u j c.category st
    | .choice => .error (.fatal "choice constraints aren't impl")
termination_by structural fuel

/-- Visiting each constraint of a list in order (the `for` loops of
solver.rs:148-150 and 189-191). -/
def visitList (fuel : Nat) (cs : List CategorizedConstraint) (st : SolverSt) :
    Except SError SolverSt :=
  match fuel, cs with
  | _, [] => .ok st
  | 0, _ :: _ => .error (.fatal "visit: out of fuel")
  | fuel + 1, c :: rest =>
      match visit fuel c st with
      | .error e => .error e
      | .ok st' => visitList fuel rest st'
termination_by structural fuel

end

/-- The loop of `Solver::solve` (solver.rs:379-415): pop until empty;
`Choice` panics; a `FlexFlex` unification compares the solutions of the
two head metas — both read off `t` (solver.rs:391-399) — and leaves the
constraint parked when they agree, panicking otherwise; every other
category panics ("solver can't handle ..."). -/
def solveLoop : List CategorizedConstraint → SolutionMap → Except SError SolutionMap
  | [], sols => .ok sols
  | c :: rest, sols =>
    match c.constraint with
    | .choice => .error (.fatal "can't process choice constraints")
    | .unification t _u _j =>
      match c.category with
      | .flexFlex =>
        match t.head with
        | some th =>
          match th.asVarName with
          | some t_head =>
            match t.head with
            | some uh =>
              match uh.asVarName with
              | some u_head =>
                if lookupAL sols t_head = lookupAL sols u_head then solveLoop rest sols
                else .error (.fatal "flex-flex solution is not eq")
              | none => .error (.fatal "head is not a Var")
            | none => .error (.fatal "unwrap of None head")
          | none => .error (.fatal "head is not a Var")
        | none => .error (.fatal "unwrap of None head")
      | _ => .error (.fatal "solver can't handle this category")

/-- `Solver::solve` run on a solver state: drain the queue, return the
final solution map. -/
def Solver.solve (st : SolverSt) : Except SError SolutionMap :=
  solveLoop st.constraints st.solution_mapping

/-- Modelled from the spec: surface names (§6), `Qualified([String]) |
Unqualified(String) | Placeholder`, spans dropped (names are `Hash + Eq`
ignoring span). -/
inductive AstName where
  | qualified (components : List String)
  | unqualified (s : String)
  | placeholder
  deriving DecidableEq, Repr

/-- Modelled from the spec: surface literals (§4.3 elaborate_term). -/
inductive AstLiteral where
  | unit
  | int (i : Int)
  deriving DecidableEq, Repr

/-- Modelled from the spec: surface terms (§6), spans dropped.  A binder
is a name/type pair.  `Match` is dispatched to the pattern-match
elaborator, which lives in a module not present in the repository's files
and which no settled claim exercises, so the modelled surface fragment
omits it. -/
inductive AstTerm where
  | lit (l : AstLiteral)
  | var (name : AstName)
  | app (f a : AstTerm)
  | forallT (binders : List (AstName × AstTerm)) (body : AstTerm)
  | lambda (args : List (AstName × AstTerm)) (body : AstTerm)
  | letT (bindings : List (AstName × AstTerm × AstTerm)) (body : AstTerm)
  | typeT
  deriving Repr

/-- A surface binder: name and type. -/
abbrev AstBinder := AstName × AstTerm

/-- Modelled from the spec: a surface inductive item (§6, §4.3). -/
structure AstInductive where
  name : AstName
  parameters : List AstBinder
  ty : AstTerm
  ctors : List (AstName × AstTerm)
  deriving Repr

/-- Modelled from the spec: a surface definition (§6, §4.3). -/
structure AstDef where
  name : AstName
  args : List AstBinder
  ty : AstTerm
  body : AstTerm
  deriving Repr

/-- Modelled from the spec: a surface extern declaration (§6). -/
structure AstExternDecl where
  name : AstName
  term : AstTerm
  deriving Repr

/-- Modelled from the spec: surface items (§6). -/
inductive AstItem where
  | inductiveItem (d : AstInductive)
  | defItem (f : AstDef)
  | externItem (e : AstExternDecl)
  | importItem (n : AstName)
  | commentItem
  deriving Repr

/-- Modelled from the spec: a surface module (§6). -/
structure AstModule where
  name : AstName
  items : List AstItem
  deriving Repr

/-- Modelled from the spec: `to_qualified_name` from `elaborate/util.rs`
(not in the repository's files).  From its call sites: `elaborate_name`
falls back to the minted placeholder exactly when it returns `None`, and
an unqualified undefined name must reach the `UnknownVariable` error, so
qualified and unqualified names map to the evident qualified core name and
placeholders to `None`. -/
def to_qualified_name : AstName → Option Name
  | .qualified cs => some (.qual cs)
  | .unqualified s => some (.qual [s])
  | .placeholder => none

/-- Modelled from the spec: `ast::Name::in_scope(ext)`, building the
nested name `T.ext` used for the recursor `T.rec` (§4.3
elaborate_data). -/
def AstName.in_scope : AstName → String → Option AstName
  | .qualified cs, ext => some (.qualified (cs ++ [ext]))
  | .unqualified s, ext => some (.qualified [s, ext])
  | .placeholder, _ => none

/-- Modelled from the spec: `core::Name::in_scope(ext)`, the qualified
name extended by one component. -/
def Name.in_scope : Name → String → Option Name
  | .qual cs, ext => some (.qual (cs ++ [ext]))
  | _, _ => none

/-- `elaborate::Error` (mod.rs:16-23); `fatal` models a `panic!` or a
failed `unwrap`, and the `typeck::Error` payload of `TypeCk` is outside
the modelled fragment. -/
inductive ElabError where
  | unexpectedQualifiedName
  | unknownVariable (n : AstName)
  | typeCk
  | invalidImport
  | many (es : List ElabError)
  | fatal (msg : String)
  deriving Repr

/-- Modelled from the spec: `core::Data` (§3.3), spans dropped. -/
structure Data where
  name : Name
  parameters : List Name
  ty : Term
  ctors : List (Name × Term)
  deriving Repr

/-- Modelled from the spec: `core::Function` (§3.3). -/
structure Fn where
  name : Name
  args : List Name
  ret_ty : Term
  body : Term
  deriving Repr

/-- Modelled from the spec: `core::Extern` (§3.3), spans dropped. -/
structure ExternDecl where
  name : Name
  term : Term
  deriving Repr

/-- Modelled from the spec: `core::Item` (§3.3). -/
inductive Item where
  | data (d : Data)
  | fn (f : Fn)
  | externDecl (e : ExternDecl)
  deriving Repr

/-- Modelled from the spec: `core::Module` (§3.3), the file path as a
plain string. -/
structure Module where
  file_name : String
  name : Name
  defs : List Item
  imports : List Name
  deriving Repr

/-- The elaboration state machine: Rust methods take `&mut self` and
`try!` returns early, so mutations made before a failure persist in the
caller's context.  `ElabM σ α` therefore returns the state alongside the
result on both success and failure. -/
abbrev ElabM (σ α : Type) := σ → Except ElabError α × σ

instance {σ : Type} : Monad (ElabM σ) where
  pure a := fun s => (.ok a, s)
  bind m f := fun s =>
    match m s with
    | (.ok a, s') => f a s'
    | (.error e, s') => (.error e, s')

/-- Fail with an error (`return Err(e)` / a propagated `try!`). -/
def throwE {σ α : Type} (e : ElabError) : ElabM σ α := fun s => (.error e, s)

/-- Run a computation and capture its outcome instead of propagating it
(the `match ecx.elaborate_def(def)` of the item loop). -/
def attempt {σ α : Type} (m : ElabM σ α) : ElabM σ (Except ElabError α) :=
  fun s => match m s with
  | (r, s') => (.ok r, s')

/-- `ElabCx` (mod.rs:53-64): the surface module, the declared-constructor
set, the surface-to-qualified-name globals map, the metavariable counter
and the typing context. -/
structure ElabCx where
  module : AstModule
  constructors : List AstName
  globals : List (AstName × Name)
  metavar_counter : Nat
  ty_cx : TyCtxt
  deriving Repr

/-- `LocalElabCx` (mod.rs:283-289): an `ElabCx` plus the local scope, as a
surface-name-to-local map kept alongside an ordered list of the locals. -/
structure LocalElabCx where
  cx : ElabCx
  locals : List (AstName × Name)
  locals_in_order : List Name
  deriving Repr

/-- Run an `ElabCx` computation from inside a `LocalElabCx` (the borrowed
`self.cx`). -/
def liftCx {α : Type} (m : ElabM ElabCx α) : ElabM LocalElabCx α := fun st =>
  match m st.cx with
  | (r, cx') => (r, { st with cx := cx' })

/-- `LocalElabCx::from_elab_cx` (mod.rs:292-298) scoping a computation:
run with empty local scope, keep the mutated `ElabCx`. -/
def runLocal {α : Type} (m : ElabM LocalElabCx α) : ElabM ElabCx α := fun cx =>
  match m ⟨cx, [], []⟩ with
  | (r, lst) => (r, lst.cx)

/-- `ElabCx::elaborate_global_name` (mod.rs:250-265): `Qualified` and
`Placeholder` are rejected with `UnexpectedQualifiedName`; `Unqualified(s)`
becomes `Qual { components: [s] }` and is recorded in the globals map. -/
def ElabCx.elaborate_global_name (n : AstName) : ElabM ElabCx Name :=
  match n with
  | .qualified _ => throwE .unexpectedQualifiedName
  | .unqualified s => fun st =>
      let qn : Name := .qual [s]
      (.ok qn, { st with globals := insertAL st.globals (.unqualified s) qn })
  | .placeholder => throwE .unexpectedQualifiedName

/-- `ElabCx::meta` (mod.rs:267-275): mint `Name::Meta` numbered with the
current counter, then increment the counter. -/
def ElabCx.meta (ty : Term) : ElabM ElabCx Name := fun st =>
  (.ok (.meta st.metavar_counter ty),
   { st with metavar_counter := st.metavar_counter + 1 })

/-- `ElabCx::make_placeholder` (mod.rs:277-280): a fresh meta whose type
is itself a fresh meta of type `Type`. -/
def ElabCx.make_placeholder : ElabM ElabCx Name := do
  let ty ← ElabCx.meta .typeU
  ElabCx.meta ty.to_term

/-- `LocalElabCx::meta_in_context` (mod.rs:461-481): a fresh meta whose
type is Π-closed over the ordered locals, applied to those locals. -/
def LocalElabCx.meta_in_context (ty : Term) : ElabM LocalElabCx Term := fun st =>
  let meta_no := st.cx.metavar_counter
  let ty' := Term.abstract_pi st.locals_in_order ty
  let metaN : Name := .meta meta_no ty'
  let args := st.locals_in_order.map Name.to_term
  (.ok (Term.apply_all metaN.to_term args),
   { st with cx := { st.cx with metavar_counter := st.cx.metavar_counter + 1 } })

/-- `LocalElabCx::elaborate_name` (mod.rs:419-459): a placeholder mints a
`make_placeholder` meta up front; then resolution tries the local scope,
the module globals, and the typing context via `to_qualified_name`
(placeholders fall back to the minted meta, which passes the scope check
by `is_meta`); anything else is `UnknownVariable`.  `set_span` is a
no-op with spans dropped. -/
def LocalElabCx.elaborate_name (name : AstName) : ElabM LocalElabCx Name := fun st =>
  let mint : Option Name × LocalElabCx :=
    match name with
    | .placeholder =>
        match liftCx ElabCx.make_placeholder st with
        | (.ok p, st') => (some p, st')
        | (.error _, st') => (none, st')
    | _ => (none, st)
  match mint with
  | (placeholder, st1) =>
    match lookupAL st1.locals name with
    | some l => (.ok l, st1)
    | none =>
      match lookupAL st1.cx.globals name with
      | some nn => (.ok nn, st1)
      | none =>
        match
          (match to_qualified_name name with
           | none => placeholder
           | some cn => some cn) with
        | none => (.error (.fatal "placeholder.unwrap() on None"), st1)
        | some core_name =>
            if st1.cx.ty_cx.in_scope core_name || core_name.is_meta then
              (.ok core_name, st1)
            else
              (.error (.unknownVariable name), st1)

/-- `LocalElabCx::elaborate_literal` (mod.rs:412-417). -/
def elaborate_literal : AstLiteral → Literal
  | .unit => .unit
  | .int i => .int i

/-- The scope-extension step of `enter_scope`'s binder loop
(mod.rs:322-326): mint the local in the typing context, record it in the
surface-name map and at the end of the ordered list, and return it. -/
def mintLocalBinder (key : AstName) (repr : String) (ty : Term) :
    ElabM LocalElabCx Name := fun st =>
  match st.cx.ty_cx.local_with_repr repr ty with
  | (lname, tcx') =>
      (.ok lname,
       { st with
         cx := { st.cx with ty_cx := tcx' },
         locals := insertAL st.locals key lname,
         locals_in_order := st.locals_in_order ++ [lname] })

/-- The scope save/restore wrapper of `LocalElabCx::enter_scope`
(mod.rs:300-335), over an arbitrary binder-loop computation `pb`: save
both scope components, run the binder loop, run the body, and restore the
saved scope — the restore runs only on the success path, as the source's
`try!` returns early on failure. -/
def enter_scope_gen {R : Type} (pb : ElabM LocalElabCx (List Name))
    (body : List Name → ElabM LocalElabCx R) : ElabM LocalElabCx R := fun st =>
  let old_context := st.locals
  let old_locals_in_order := st.locals_in_order
  match pb st with
  | (.error e, st') => (.error e, st')
  | (.ok locals, st') =>
    match body locals st' with
    | (.error e, st'') => (.error e, st'')
    | (.ok result, st'') =>
        (.ok result,
         { st'' with locals := old_context, locals_in_order := old_locals_in_order })

mutual

/-- `LocalElabCx::elaborate_term` (mod.rs:350-410): the surface-to-core
map; `Forall`/`Lambda` enter a scope and abstract; `Let` panics in the
source ("let bindings can not be elaborated").  The Rust recursion is
structural on the surface term; the model takes fuel instead. -/
def elaborate_term (fuel : Nat) (term : AstTerm) : ElabM LocalElabCx Term :=
  match fuel with
  | 0 => throwE (.fatal "elaborate_term: out of fuel")
  | fuel + 1 =>
    match term with
    | .lit l => pure (.lit (elaborate_literal l))
    | .var name => do
        let n ← LocalElabCx.elaborate_name name
        pure n.to_term
    | .app f a => do
        let ef ← elaborate_term fuel f
        let ea ← elaborate_term fuel a
        pure (.app ef ea)
    | .forallT binders body =>
        enter_scope_gen (processBinders fuel binders) (fun locals => do
          let t ← elaborate_term fuel body
          pure (Term.abstract_pi locals t))
    | .lambda args body =>
        enter_scope_gen (processBinders fuel args) (fun locals => do
          let eb ← elaborate_term fuel body
          pure (Term.abstract_lambda locals eb))
    | .letT _ _ => throwE (.fatal "let bindings can not be elaborated")
    | .typeT => pure .typeU
termination_by structural fuel

/-- The binder loop of `enter_scope` (mod.rs:311-327): a qualified binder
name panics, a placeholder prints as `_`; each binder type is elaborated
in the scope extended so far. -/
def processBinders (fuel : Nat) (binders : List AstBinder) :
    ElabM LocalElabCx (List Name) :=
  match fuel, binders with
  | _, [] => pure []
  | 0, _ :: _ => throwE (.fatal "elaborate_term: out of fuel")
  | fuel + 1, b :: rest => do
      let repr ←
        match b.1 with
        | .qualified _ => throwE (σ := LocalElabCx) (α := String) (.fatal "qualified binder name")
        | .unqualified s => pure s
        | .placeholder => pure "_"
      let eterm ← elaborate_term fuel b.2
      let lname ← mintLocalBinder b.1 repr eterm
      let restNames ← processBinders fuel rest
      pure (lname :: restNames)
termination_by structural fuel

end

/-- `LocalElabCx::enter_scope` (mod.rs:300-335): the save/restore wrapper
applied to the binder loop; `elaborate_term`'s `Forall`/`Lambda` arms are
exactly this at one fuel step down. -/
def enter_scope {R : Type} (fuel : Nat) (binders : List AstBinder)
    (body : List Name → ElabM LocalElabCx R) : ElabM LocalElabCx R :=
  enter_scope_gen (processBinders fuel binders) body

/-- Set insertion, the model of `HashSet::insert`. -/
def insertSet (l : List AstName) (a : AstName) : List AstName :=
  if a ∈ l then l else l ++ [a]

/-- The constructor pre-scan of the item loop (mod.rs:106-110): record
every constructor surface name of an inductive item. -/
def registerCtors (ctors : List (AstName × AstTerm)) : ElabM ElabCx Unit := fun st =>
  (.ok (), { st with constructors := ctors.foldl (fun acc c => insertSet acc c.1) st.constructors })

/-- Modelled from the spec: `TyCtxt::load_import` is delegated to the
module loader, "failures surfaced as `InvalidImport`" (§4.2, §6); the
loaded module's item registration is outside the modelled fragment. -/
def load_import (cn : Name) : ElabM ElabCx Unit := fun st =>
  match cn with
  | .qual cs =>
      if st.ty_cx.importable.contains cs then (.ok (), st)
      else (.error .invalidImport, st)
  | _ => (.error .invalidImport, st)

/-- `ElabCx::elaborate_import` (mod.rs:149-155): `to_qualified_name`
unwrapped (a panic on `None`), then the loader. -/
def elaborate_import (n : AstName) : ElabM ElabCx Name :=
  match to_qualified_name n with
  | none => throwE (.fatal "to_qualified_name(..).unwrap() on None")
  | some cn => do
      load_import cn
      pure cn

/-- Modelled from the spec: `TyCtxt::declare_datatype` registers the
type, every constructor and the recursor; a duplicate declaration is the
failure case (§4.2).  Recursor type synthesis is outside the modelled
fragment; the declared names suffice for `in_scope`. -/
def declare_datatype (d : Data) : ElabM ElabCx Unit := fun st =>
  if st.ty_cx.in_scope d.name then (.error .typeCk, st)
  else
    let recNames := match d.name.in_scope "rec" with
      | some rn => [rn]
      | none => []
    (.ok (),
     { st with ty_cx := { st.ty_cx with
         declarations :=
           st.ty_cx.declarations ++ [d.name] ++ d.ctors.map Prod.fst ++ recNames } })

/-- Modelled from the spec: `TyCtxt::declare_def` (§4.2). -/
def declare_def (f : Fn) : ElabM ElabCx Unit := fun st =>
  (.ok (), { st with ty_cx := { st.ty_cx with
    declarations := st.ty_cx.declarations ++ [f.name] } })

/-- Modelled from the spec: `TyCtxt::declare_extern` (§4.2). -/
def declare_extern_item (e : ExternDecl) : ElabM ElabCx Unit := fun st =>
  (.ok (), { st with ty_cx := { st.ty_cx with
    declarations := st.ty_cx.declarations ++ [e.name] } })

/-- Modelled from the spec: `TyCtxt::type_check_module` infers each item
and produces the constraint sequence (§4.2); constraint generation lives
in the type checker, outside the repository's files, and no settled claim
depends on it, so the model records success. -/
def type_check_module (_m : Module) : ElabM ElabCx Unit :=
  pure ()

/-- `LocalElabCx::elaborate_ctor` (mod.rs:337-348): qualify the
constructor name, elaborate its type under the parameter scope, and
Π-abstract the type by the parameters. -/
def elaborate_ctor (fuel : Nat) (parameters : List Name) (ctor : AstName × AstTerm) :
    ElabM LocalElabCx (Name × Term) := do
  let ename ← liftCx (ElabCx.elaborate_global_name ctor.1)
  let ety ← elaborate_term fuel ctor.2
  pure (ename, Term.abstract_pi parameters ety)

/-- The constructor loop of `elaborate_data` (mod.rs:195-199). -/
def elaborate_ctors (fuel : Nat) (parameters : List Name) :
    List (AstName × AstTerm) → ElabM LocalElabCx (List (Name × Term))
  | [] => pure []
  | c :: rest => do
      let ec ← elaborate_ctor fuel parameters c
      let ecs ← elaborate_ctors fuel parameters rest
      pure (ec :: ecs)

/-- `ElabCx::elaborate_data` (mod.rs:179-215): pre-register the recursor
name `T.rec` in the globals, then under the parameter scope elaborate each
constructor and the datatype's own type, Π-abstracting the latter by the
parameters. -/
def elaborate_data (fuel : Nat) (d : AstInductive) : ElabM ElabCx Data := do
  let ast_rec_name ←
    match AstName.in_scope d.name "rec" with
    | some n => pure n
    | none => throwE (σ := ElabCx) (α := AstName) (.fatal "in_scope(..).unwrap() on None")
  let ty_name ← ElabCx.elaborate_global_name d.name
  let rec_qual ←
    match ty_name.in_scope "rec" with
    | some n => pure n
    | none => throwE (σ := ElabCx) (α := Name) (.fatal "in_scope(..).unwrap() on None")
  (fun st => (.ok (), { st with globals := insertAL st.globals ast_rec_name rec_qual })
    : ElabM ElabCx Unit)
  let r ← runLocal (enter_scope fuel d.parameters (fun params => do
    let ctors ← elaborate_ctors fuel params d.ctors
    let ety ← elaborate_term fuel d.ty
    pure (ctors, Term.abstract_pi params ety, params)))
  match r with
  | (ctors, ty, params) =>
      pure { name := ty_name, parameters := params, ty := ty, ctors := ctors }

/-- `ElabCx::elaborate_fn` (mod.rs:217-239): under the argument scope,
qualify the name, elaborate the return type and body, and store the
Π-abstracted type and λ-abstracted body together with the locals list. -/
def elaborate_fn (fuel : Nat) (f : AstDef) : ElabM ElabCx Fn :=
  runLocal (enter_scope fuel f.args (fun args_ => do
    let name ← liftCx (ElabCx.elaborate_global_name f.name)
    let ty ← elaborate_term fuel f.ty
    let ebody ← elaborate_term fuel f.body
    pure { name := name, args := args_,
           ret_ty := Term.abstract_pi args_ ty,
           body := Term.abstract_lambda args_ ebody }))

/-- `ElabCx::elaborate_extern` (mod.rs:241-248). -/
def elaborate_extern_item (fuel : Nat) (e : AstExternDecl) : ElabM ElabCx ExternDecl := do
  let n ← ElabCx.elaborate_global_name e.name
  let t ← runLocal (elaborate_term fuel e.term)
  pure { name := n, term := t }

/-- `ElabCx::elaborate_def` (mod.rs:157-177): dispatch per item;
comments and imports elaborate to nothing. -/
def elaborate_def (fuel : Nat) (item : AstItem) : ElabM ElabCx (Option Item) :=
  match item with
  | .inductiveItem d => do
      let ed ← elaborate_data fuel d
      pure (some (.data ed))
  | .defItem f => do
      let ef ← elaborate_fn fuel f
      pure (some (.fn ef))
  | .externItem e => do
      let ee ← elaborate_extern_item fuel e
      pure (some (.externDecl ee))
  | .importItem _ => pure none
  | .commentItem => pure none

/-- The item loop of `elaborate_module` (mod.rs:104-131): pre-scan the
item (constructor registration, imports — an import failure propagates
through `try!` and aborts), then run `elaborate_def`, pushing its error
into the accumulator on failure and otherwise declaring the elaborated
item into the typing context (a failing datatype declaration also aborts
through `try!`). -/
def elabItems (fuel : Nat) :
    List AstItem → List ElabError → List Item → List Name →
    ElabM ElabCx (List ElabError × List Item × List Name)
  | [], errors, defs, imports => pure (errors, defs, imports)
  | item :: rest, errors, defs, imports => do
      let imports' ←
        match item with
        | .inductiveItem d => do
            registerCtors d.ctors
            pure imports
        | .importItem n => do
            let cn ← elaborate_import n
            pure (imports ++ [cn])
        | _ => pure imports
      let r ← attempt (elaborate_def fuel item)
      match r with
      | .error e => elabItems fuel rest (errors ++ [e]) defs imports'
      | .ok none => elabItems fuel rest errors defs imports'
      | .ok (some edef) => do
          (match edef with
           | .data d => declare_datatype d
           | .fn f => declare_def f
           | .externDecl e => declare_extern_item e)
          elabItems fuel rest errors (defs ++ [edef]) imports'

/-- `ElabCx::elaborate_module` (mod.rs:94-147): qualify the module's own
name, run the item loop, return `Error::Many` of the accumulated item
errors when any item failed, and otherwise assemble the core module and
type-check it. -/
def elaborate_module (fuel : Nat) (path : String) : ElabM ElabCx Module := do
  let module_name ← (fun st => (.ok st.module.name, st) : ElabM ElabCx AstName)
  let name ← ElabCx.elaborate_global_name module_name
  let items ← (fun st => (.ok st.module.items, st) : ElabM ElabCx (List AstItem))
  let r ← elabItems fuel items [] [] []
  match r with
  | (errors, defs, imports) =>
    if errors.length ≠ 0 then
      throwE (.many errors)
    else do
      let m : Module := { file_name := path, name := name, defs := defs, imports := imports }
      type_check_module m
      pure m

/-! ## Claim theorems -/

/-- C9: `elaborate_global_name` returns `UnexpectedQualifiedName` for every
`Qualified` and every `Placeholder` input (leaving the context untouched),
and for `Unqualified(s)` returns `Qual { components: [s] }` after recording
the surface-name-to-qualified-name mapping in the globals map. -/
theorem elaborate_global_name_spec :
    ∀ st : ElabCx,
      (∀ cs, ElabCx.elaborate_global_name (.qualified cs) st =
        (.error .unexpectedQualifiedName, st)) ∧
      (ElabCx.elaborate_global_name .placeholder st =
        (.error .unexpectedQualifiedName, st)) ∧
      (∀ s, ElabCx.elaborate_global_name (.unqualified s) st =
        (.ok (.qual [s]),
         { st with globals := insertAL st.globals (.unqualified s) (.qual [s]) })) := by
  intro st
  exact ⟨fun _ => rfl, rfl, fun _ => rfl⟩

/-- C2: at the failing input — a popped `FlexFlex` constraint
`?m0 ≡ ?m1` whose two head metas carry different recorded solutions —
`solve`'s loop accepts the constraint as consistent (both compared
solutions are read off `t`'s head, solver.rs:391-399) and returns the
solution map unchanged, although the two sides' solutions differ, so no
mismatch is ever reported and no solution is invented. -/
theorem solve_flexflex_left_head_bug :
    (solveLoop
      [⟨.flexFlex, .unification (Term.metav 0 .typeU) (Term.metav 1 .typeU) .assumption⟩]
      [(Name.meta 0 .typeU, (Term.typeU, .assumption)),
       (Name.meta 1 .typeU, (Term.lit .unit, .assumption))]
      = .ok [(Name.meta 0 .typeU, (Term.typeU, .assumption)),
             (Name.meta 1 .typeU, (Term.lit .unit, .assumption))])
    ∧ lookupAL
        [(Name.meta 0 .typeU, (Term.typeU, Justification.assumption)),
         (Name.meta 1 .typeU, (Term.lit .unit, Justification.assumption))]
        (Name.meta 0 .typeU)
      ≠ lookupAL
        [(Name.meta 0 .typeU, (Term.typeU, Justification.assumption)),
         (Name.meta 1 .typeU, (Term.lit .unit, Justification.assumption))]
        (Name.meta 1 .typeU) := by
  constructor
  · rfl
  · decide

/-- C3 counterexample: a popped `Pattern`-categorized unification
constraint is rejected by `solve` with the "solver can't handle" panic —
it is not processed by re-running `visit_unification`. -/
theorem solve_pattern_category_rejected :
    solveLoop
      [⟨.pattern, .unification (Term.metav 0 .typeU) .typeU .assumption⟩] [] =
      .error (.fatal "solver can't handle this category") := by
  rfl

/-- C3 amended: in `solve`, every popped unification constraint whose
category is not `FlexFlex` makes solving fail with the fatal
"solver can't handle ..." panic (solver.rs:407); `visit_unification` is
not re-run on it. -/
theorem solve_non_flexflex_fatal
    (rest : List CategorizedConstraint) (sols : SolutionMap)
    (t u : Term) (j : Justification) (cat : ConstraintCategory)
    (h : cat ≠ .flexFlex) :
    solveLoop (⟨cat, .unification t u j⟩ :: rest) sols =
      .error (.fatal "solver can't handle this category") := by
  cases cat <;> first
    | rfl
    | exact absurd rfl h

/-- C3 amended, witness: a concrete `FlexRigid` constraint popped by
`solve` fails fatally. -/
theorem solve_non_flexflex_fatal_witness :
    solveLoop
      [⟨.flexRigid, .unification (Term.metav 0 .typeU) .typeU .assumption⟩] [] =
      .error (.fatal "solver can't handle this category") :=
  solve_non_flexflex_fatal [] [] (Term.metav 0 .typeU) .typeU .assumption
    .flexRigid (by decide)

/-- C6: the pivot-meta choice of `visit_unification` (solver.rs:120-132):
with both sides stuck on `m1`, `m2`, the pivot is `m1` when `m1` has a
recorded solution and `m2` otherwise; with exactly one side stuck, its
meta is the pivot; with neither side stuck the call fails with the fatal
invariant-violation panic. -/
theorem visit_unification_pivot_spec :
    ∀ (st : SolverSt) (r s : Term) (fuel : Nat) (j : Justification)
      (k : ConstraintCategory),
      (∀ m1 m2, r.is_stuck = some m1 → s.is_stuck = some m2 →
         (solution_for st m1).isSome → pivotMeta st r s = .ok m1) ∧
      (∀ m1 m2, r.is_stuck = some m1 → s.is_stuck = some m2 →
         solution_for st m1 = none → pivotMeta st r s = .ok m2) ∧
      (∀ m, r.is_stuck = some m → s.is_stuck = none → pivotMeta st r s = .ok m) ∧
      (∀ m, r.is_stuck = none → s.is_stuck = some m → pivotMeta st r s = .ok m) ∧
      (r.is_stuck = none → s.is_stuck = none →
         visit_unification (fuel + 1) r s j k st =
           .error (.fatal
             "one of these should be stuck otherwise the constraint should be gone already I think?")) := by
  intro st r s fuel j k
  refine ⟨?_, ?_, ?_, ?_, ?_⟩
  · intro m1 m2 h1 h2 hsome
    simp [pivotMeta, h1, h2, hsome]
  · intro m1 m2 h1 h2 hnone
    simp [pivotMeta, h1, h2, hnone]
  · intro m h1 h2
    simp [pivotMeta, h1, h2]
  · intro m h1 h2
    simp [pivotMeta, h1, h2]
  · intro h1 h2
    simp [visit_unification, pivotMeta, h1, h2]

/-- C6 witness: the pivot choice at concrete inputs — both sides stuck
with the left meta solved picks the left meta; neither side stuck makes
`visit_unification` fail fatally. -/
theorem visit_unification_pivot_spec_witness :
    (pivotMeta
      ⟨[], [], [(Name.meta 0 .typeU, (Term.typeU, .assumption))], ⟨[], [], [], 0⟩⟩
      (Term.metav 0 .typeU) (Term.metav 1 .typeU) = .ok (.meta 0 .typeU)) ∧
    (visit_unification 1 Term.typeU Term.typeU .assumption .regular
        ⟨[], [], [], ⟨[], [], [], 0⟩⟩ =
      .error (.fatal
        "one of these should be stuck otherwise the constraint should be gone already I think?")) := by
  constructor
  · exact (visit_unification_pivot_spec
      ⟨[], [], [(Name.meta 0 .typeU, (Term.typeU, .assumption))], ⟨[], [], [], 0⟩⟩
      (Term.metav 0 .typeU) (Term.metav 1 .typeU) 0 .assumption .regular).1
      (.meta 0 .typeU) (.meta 1 .typeU) rfl rfl (by decide)
  · exact (visit_unification_pivot_spec
      ⟨[], [], [], ⟨[], [], [], 0⟩⟩ Term.typeU Term.typeU 0 .assumption
      .regular).2.2.2.2 rfl rfl

/-- The three meta-minting operations reachable through an `ElabCx`
(mod.rs:267-280, 461-481), for stating the counter invariant. -/
inductive MintOp where
  | mkMeta (ty : Term)
  | mkPlaceholder
  | mkMetaInCtx (ty : Term)

/-- Run one minting operation on a local elaboration context (the
`ElabCx` operations act through the borrowed context). -/
def runMint : MintOp → LocalElabCx → LocalElabCx
  | .mkMeta ty, st => (liftCx (ElabCx.meta ty) st).2
  | .mkPlaceholder, st => (liftCx ElabCx.make_placeholder st).2
  | .mkMetaInCtx ty, st => (LocalElabCx.meta_in_context ty st).2

/-- How many metas one operation mints (`make_placeholder` mints the type
meta and the value meta). -/
def mintCost : MintOp → Nat
  | .mkMeta _ => 1
  | .mkPlaceholder => 2
  | .mkMetaInCtx _ => 1

/-- The numbers of the metas one operation mints: the consecutive counter
values it consumes. -/
def mintedNumbers (op : MintOp) (st : LocalElabCx) : List Nat :=
  List.range' st.cx.metavar_counter (mintCost op)

/-- All meta numbers minted by a sequence of operations, each run on the
state the previous ones produced. -/
def mintSeqNumbers : List MintOp → LocalElabCx → List Nat
  | [], _ => []
  | op :: ops, st => mintedNumbers op st ++ mintSeqNumbers ops (runMint op st)

theorem runMint_counter (op : MintOp) (st : LocalElabCx) :
    (runMint op st).cx.metavar_counter = st.cx.metavar_counter + mintCost op := by
  cases op <;> rfl

theorem mintSeqNumbers_lb :
    ∀ (ops : List MintOp) (st : LocalElabCx) (x : Nat),
      x ∈ mintSeqNumbers ops st → st.cx.metavar_counter ≤ x := by
  intro ops
  induction ops with
  | nil => intro st x hx; simp [mintSeqNumbers] at hx
  | cons op ops ih =>
      intro st x hx
      simp only [mintSeqNumbers, List.mem_append] at hx
      rcases hx with hx | hx
      · exact (List.mem_range'_1.mp hx).1
      · have := ih (runMint op st) x hx
        rw [runMint_counter] at this
        omega

/-- C10: every meta minted through an `ElabCx` — by `meta`,
`make_placeholder` (which mints two), or `meta_in_context` — is numbered
with the metavariable counter's current value and the counter advances
once per minted meta (the three exact equations), so the numbers minted
by any sequence of such operations are pairwise distinct. -/
theorem meta_numbers_distinct :
    (∀ (st : ElabCx) (ty : Term), ElabCx.meta ty st =
      (.ok (.meta st.metavar_counter ty),
       { st with metavar_counter := st.metavar_counter + 1 })) ∧
    (∀ st : ElabCx, ElabCx.make_placeholder st =
      (.ok (.meta (st.metavar_counter + 1) (Term.metav st.metavar_counter .typeU)),
       { st with metavar_counter := st.metavar_counter + 2 })) ∧
    (∀ (st : LocalElabCx) (ty : Term), LocalElabCx.meta_in_context ty st =
      (.ok (Term.apply_all
              (Term.metav st.cx.metavar_counter (Term.abstract_pi st.locals_in_order ty))
              (st.locals_in_order.map Name.to_term)),
       { st with cx := { st.cx with metavar_counter := st.cx.metavar_counter + 1 } })) ∧
    (∀ (ops : List MintOp) (st : LocalElabCx), (mintSeqNumbers ops st).Nodup) := by
  refine ⟨fun _ _ => rfl, fun _ => rfl, fun _ _ => rfl, ?_⟩
  intro ops
  induction ops with
  | nil => intro st; simp [mintSeqNumbers]
  | cons op ops ih =>
      intro st
      simp only [mintSeqNumbers]
      refine List.Nodup.append (List.nodup_range' _ _) (ih _) ?_
      intro x hx hx'
      have h1 := (List.mem_range'_1.mp hx).2
      have h2 := mintSeqNumbers_lb ops (runMint op st) x hx'
      rw [runMint_counter] at h2
      simp only [mintedNumbers] at h1
      omega

/-- An empty elaboration context over an empty module, used by the
concrete runs below. -/
def cxFix : ElabCx := ⟨⟨.unqualified "M", []⟩, [], [], 0, ⟨[], [], [], 0⟩⟩

/-- An empty local scope over `cxFix`. -/
def lstFix : LocalElabCx := ⟨cxFix, [], []⟩

/-- C8 counterexample: a concrete `enter_scope` call whose body fails —
the call returns with the binder still in the local scope, both in the
map and in the ordered list, so the scope is not restored on failure. -/
theorem enter_scope_failure_keeps_scope :
    ((enter_scope 10 [(.unqualified "x", .typeT)]
        (fun _ => throwE (α := Unit) (.fatal "boom")) lstFix).2.locals =
      [(.unqualified "x", .lcl 0 "x" .typeU)]) ∧
    ((enter_scope 10 [(.unqualified "x", .typeT)]
        (fun _ => throwE (α := Unit) (.fatal "boom")) lstFix).2.locals_in_order =
      [.lcl 0 "x" .typeU]) ∧
    lstFix.locals = [] ∧ lstFix.locals_in_order = [] ∧
    ((enter_scope 10 [(.unqualified "x", .typeT)]
        (fun _ => throwE (α := Unit) (.fatal "boom")) lstFix).1 =
      .error (.fatal "boom")) := by
  exact ⟨rfl, rfl, rfl, rfl, rfl⟩

/-- C8 amended: `enter_scope` saves the surface-name map and the ordered
locals list and restores both when the binder loop and the body succeed;
on failure the source's `try!` returns early and the extended scope is
left in place. -/
theorem enter_scope_restores_on_success {R : Type} (fuel : Nat)
    (binders : List AstBinder) (body : List Name → ElabM LocalElabCx R)
    (st st' : LocalElabCx) (r : R)
    (h : enter_scope fuel binders body st = (.ok r, st')) :
    st'.locals = st.locals ∧ st'.locals_in_order = st.locals_in_order := by
  simp only [enter_scope, enter_scope_gen] at h
  split at h
  · simp at h
  · split at h
    · simp at h
    · cases h
      exact ⟨rfl, rfl⟩

/-- C8 amended, witness: a concrete successful `enter_scope` run over a
one-binder scope ends with the scope restored. -/
theorem enter_scope_restores_on_success_witness :
    ((enter_scope 10 [(.unqualified "x", .typeT)]
        (fun _ => pure (42 : Nat)) lstFix).2).locals = lstFix.locals ∧
    ((enter_scope 10 [(.unqualified "x", .typeT)]
        (fun _ => pure (42 : Nat)) lstFix).2).locals_in_order = lstFix.locals_in_order :=
  enter_scope_restores_on_success 10 [(.unqualified "x", .typeT)]
    (fun _ => pure (42 : Nat)) lstFix _ 42 rfl

/-- A local context with one local `x` in scope, used by the placeholder
runs. -/
def phSt : LocalElabCx := ⟨cxFix, [(.unqualified "x", .lcl 7 "x" .typeU)], [.lcl 7 "x" .typeU]⟩

/-- C4 counterexample: resolving a placeholder in a scope whose ordered
locals list is `[x]` yields the bare fresh meta `?1 : ?0` minted by
`make_placeholder`: the resulting term has no spine at all (`args = none`,
so it is not `?m` applied to the locals) and its type is the bare meta
`?0`, not a Π-closure over `x`. -/
theorem elaborate_name_placeholder_bare_meta :
    ((LocalElabCx.elaborate_name .placeholder phSt).1 =
      .ok (.meta 1 (Term.metav 0 .typeU))) ∧
    (Name.meta 1 (Term.metav 0 .typeU)).to_term.args = none ∧
    (Term.metav 0 .typeU).is_forall = false ∧
    phSt.locals_in_order = [Name.lcl 7 "x" .typeU] := by
  exact ⟨rfl, rfl, rfl, rfl⟩

theorem make_placeholder_run (st : ElabCx) :
    ElabCx.make_placeholder st =
      (.ok (.meta (st.metavar_counter + 1) (Term.metav st.metavar_counter .typeU)),
       { st with metavar_counter := st.metavar_counter + 2 }) := rfl

/-- C4 amended: a `Placeholder` name found in neither the local scope nor
the module globals resolves — through `make_placeholder`, not
`meta_in_context` — to the bare fresh meta `?(c+1)` whose type is the
fresh meta `?c : Type`; it is neither Π-closed over the ordered local
scope nor applied to the locals, and the counter advances by two. -/
theorem elaborate_name_placeholder_spec (st : LocalElabCx)
    (h1 : lookupAL st.locals .placeholder = none)
    (h2 : lookupAL st.cx.globals .placeholder = none) :
    LocalElabCx.elaborate_name .placeholder st =
      (.ok (.meta (st.cx.metavar_counter + 1) (Term.metav st.cx.metavar_counter .typeU)),
       { st with cx := { st.cx with metavar_counter := st.cx.metavar_counter + 2 } }) := by
  simp only [LocalElabCx.elaborate_name, liftCx, make_placeholder_run]
  simp [h1, h2, to_qualified_name, Name.is_meta]

/-- C4 amended, witness: the concrete placeholder resolution in the
one-local scope `phSt`. -/
theorem elaborate_name_placeholder_spec_witness :
    LocalElabCx.elaborate_name .placeholder phSt =
      (.ok (.meta 1 (Term.metav 0 .typeU)),
       { phSt with cx := { phSt.cx with metavar_counter := 2 } }) :=
  elaborate_name_placeholder_spec phSt rfl rfl

/-- The surviving name of a pattern-spine argument: local `Var`s survive,
anything else does not. -/
def localNameOf : Term → Option Name
  | .lclv n r ty => some (.lcl n r ty)
  | _ => none

theorem head_foldl_app :
    ∀ (as : List Term) (f : Term), (as.foldl Term.app f).head = f.head := by
  intro as
  induction as with
  | nil => intro f; rfl
  | cons a as ih => intro f; exact ih (f.app a)

theorem args_foldl_app :
    ∀ (as : List Term) (f : Term),
      ((as.foldl Term.app f).args).getD [] = (f.args).getD [] ++ as := by
  intro as
  induction as with
  | nil => intro f; simp
  | cons a as ih =>
      intro f
      have := ih (f.app a)
      simp only [List.foldl_cons, this, Term.args]
      simp

theorem filterLocalArgs_ok :
    ∀ ts : List Term, (∀ a ∈ ts, (a.asVarName).isSome) →
      filterLocalArgs ts = .ok (ts.filterMap localNameOf) := by
  intro ts
  induction ts with
  | nil => intro _; rfl
  | cons a ts ih =>
      intro h
      have ha := h a (List.mem_cons_self a ts)
      have hts := ih (fun x hx => h x (List.mem_cons_of_mem a hx))
      cases a <;> simp [Term.asVarName] at ha <;>
        simp [filterLocalArgs, localNameOf, hts, Except.map]

/-- C1 counterexample: a `Pattern`-categorized constraint whose pattern
side is the right side — `c ≡ ?0 x` with a rigid global `c` on the left.
The pivot meta is `?0` (the right side is the stuck one), it has no
recorded solution, and the pivot side has shape `?m l_1`; but
`visit_unification` reads the head off the left side (solver.rs:156), so
the `assert!(meta.is_meta())` fails fatally instead of dropping
arguments and recording a solution. -/
theorem visit_unification_pattern_right_side_asserts :
    visit_unification 5 (.qualv ["c"])
        (.app (.metav 0 .typeU) (.lclv 7 "x" .typeU)) .assumption .pattern
        ⟨[], [], [], ⟨[], [], [], 0⟩⟩ =
      .error (.fatal "assertion failed: meta.is_meta()") := by
  rfl

/-- C1 amended: `visit_unification`'s `Pattern` case reads the meta and
its spine off the left side (falling back to the right head only when the
left side has none): on a `Pattern`-categorized constraint
`?m t_1 … t_k ≡ s` whose pivot meta `?m` has no recorded solution and
whose spine holds only `Var` arguments, the non-local arguments are
dropped (`filterMap`) rather than causing failure, the solution
`?m ↦ λ(surviving locals). s` is recorded in `solution_mapping`, and the
call continues by re-visiting exactly the constraints previously parked
under `m` in `constraint_mapping`.  When the pattern side is instead the
right side and the left head is rigid, the meta assertion fails. -/
theorem visit_unification_pattern_spec (fuel num : Nat) (mty : Term)
    (tArgs : List Term) (s : Term) (j : Justification) (st : SolverSt)
    (hargs : ∀ a ∈ tArgs, (a.asVarName).isSome)
    (hs : s.is_stuck = none)
    (hsol : solution_for st (.meta num mty) = none) :
    visit_unification (fuel + 1) (Term.apply_all (Term.metav num mty) tArgs) s j
        .pattern st =
      visitList fuel ((lookupAL st.constraint_mapping (.meta num mty)).getD [])
        { st with solution_mapping :=
            (insertAL st.solution_mapping (.meta num mty)
              (Term.abstract_lambda (tArgs.filterMap localNameOf) s, j)) } := by
  have hhead : (Term.apply_all (Term.metav num mty) tArgs).head =
      some (Term.metav num mty) := by
    simpa [Term.apply_all] using head_foldl_app tArgs (Term.metav num mty)
  have hargsEq : ((Term.apply_all (Term.metav num mty) tArgs).args).getD [] = tArgs := by
    simpa [Term.apply_all, Term.args] using args_foldl_app tArgs (Term.metav num mty)
  have hstuck : (Term.apply_all (Term.metav num mty) tArgs).is_stuck =
      some (.meta num mty) := by
    simp [Term.is_stuck, hhead]
  simp only [visit_unification, pivotMeta, hstuck, hs, hsol, hhead, hargsEq,
    filterLocalArgs_ok tArgs hargs, Option.orElse, Term.asVarName, Name.is_meta]
  rfl

/-- C1 witness: the concrete pattern constraint `?0 x g ≡ x` with a local
`x` and a global `g` in the spine, an empty parked-constraint map and no
recorded solutions: the global is dropped and `?0 ↦ λ x. x` is
recorded. -/
theorem visit_unification_pattern_spec_witness :
    visit_unification 5
        (Term.apply_all (Term.metav 0 .typeU) [.lclv 7 "x" .typeU, .qualv ["g"]])
        (.lclv 7 "x" .typeU) .assumption .pattern ⟨[], [], [], ⟨[], [], [], 0⟩⟩ =
      .ok ⟨[], [],
        [(Name.meta 0 .typeU, (.lambda "x" .typeU (.bound 0), .assumption))],
        ⟨[], [], [], 0⟩⟩ :=
  (visit_unification_pattern_spec 4 0 .typeU [.lclv 7 "x" .typeU, .qualv ["g"]]
    (.lclv 7 "x" .typeU) .assumption ⟨[], [], [], ⟨[], [], [], 0⟩⟩
    (by decide) rfl rfl).trans rfl

@[simp]
theorem ElabM_bind_apply {σ α β : Type} (m : ElabM σ α) (f : α → ElabM σ β) (s : σ) :
    (m >>= f) s =
      match m s with
      | (.ok a, s') => f a s'
      | (.error e, s') => (.error e, s') := rfl

@[simp]
theorem ElabM_pure_apply {σ α : Type} (a : α) (s : σ) :
    (pure a : ElabM σ α) s = (.ok a, s) := rfl

/-- C5 counterexample: a module whose first item is an import the loader
rejects and whose second item is a definition referencing an undefined
name: elaboration aborts at the import with `InvalidImport` — the
second item's `UnknownVariable` error is never collected and no
`Error::Many` is returned, so a failing item can abort the remaining
ones. -/
theorem elaborate_module_import_aborts :
    ((elaborate_module 10 "m.hbr"
        ⟨⟨.unqualified "M",
          [.importItem (.unqualified "missing"),
           .defItem ⟨.unqualified "f", [], .typeT, .var (.unqualified "u1")⟩]⟩,
         [], [], 0, ⟨[], [], [], 0⟩⟩).1 = .error .invalidImport) ∧
    (Except.error ElabError.invalidImport ≠
      (Except.error (ElabError.many
        [.invalidImport, .unknownVariable (.unqualified "u1")]) : Except ElabError Module)) := by
  constructor
  · rfl
  · intro h
    injection h with h
    cases h

/-- C5 amended: item-level errors from `elaborate_def` accumulate — a
module of two definitions each referencing an undefined name yields
`Error::Many` of exactly the two `UnknownVariable` errors, the first
failure not aborting the second item — but a failing import item aborts
elaboration immediately through `try!`. -/
theorem elaborate_module_accumulates_def_errors
    (fuel : Nat) (path nm f g v1 v2 : String)
    (hnf : nm ≠ f) (hng : nm ≠ g) (hfg : f ≠ g)
    (h1 : nm ≠ v1) (h2 : f ≠ v1)
    (h3 : nm ≠ v2) (h4 : f ≠ v2) (h5 : g ≠ v2) :
    (elaborate_module (fuel + 1) path
        ⟨⟨.unqualified nm,
          [.defItem ⟨.unqualified f, [], .typeT, .var (.unqualified v1)⟩,
           .defItem ⟨.unqualified g, [], .typeT, .var (.unqualified v2)⟩]⟩,
         [], [], 0, ⟨[], [], [], 0⟩⟩).1 =
      .error (.many [.unknownVariable (.unqualified v1),
                     .unknownVariable (.unqualified v2)]) := by
  simp [elaborate_module, ElabCx.elaborate_global_name, elabItems, attempt,
    elaborate_def, elaborate_fn, runLocal, enter_scope, enter_scope_gen,
    processBinders, elaborate_term, LocalElabCx.elaborate_name, liftCx,
    insertAL, eraseAL, lookupAL, to_qualified_name, TyCtxt.in_scope,
    Name.is_meta, throwE, type_check_module,
    hnf, hng, hfg, h1, h2, h3, h4, h5]

/-- C5 amended, witness: the accumulation at concrete names. -/
theorem elaborate_module_accumulates_def_errors_witness :
    (elaborate_module 10 "m.hbr"
        ⟨⟨.unqualified "M",
          [.defItem ⟨.unqualified "f", [], .typeT, .var (.unqualified "u1")⟩,
           .defItem ⟨.unqualified "g", [], .typeT, .var (.unqualified "u2")⟩]⟩,
         [], [], 0, ⟨[], [], [], 0⟩⟩).1 =
      .error (.many [.unknownVariable (.unqualified "u1"),
                     .unknownVariable (.unqualified "u2")]) :=
  elaborate_module_accumulates_def_errors 9 "m.hbr" "M" "f" "g" "u1" "u2"
    (by decide) (by decide) (by decide) (by decide) (by decide)
    (by decide) (by decide) (by decide)

/-- A constraint holds under an equality notion `E`: its two sides are
`E`-related (choice constraints carry no equation). -/
def HoldsE (E : Term → Term → Prop) (c : CategorizedConstraint) : Prop :=
  match c.constraint with
  | .unification t u _ => E t u
  | .choice => True

theorem HoldsE_categorize (E : Term → Term → Prop) (a b : Term) (j : Justification) :
    HoldsE E ((Constraint.unification a b j).categorize) ↔ E a b := Iff.rfl

/-- The properties of an equality notion `E` under which each `simplify`
step preserves and reflects `E`: an equivalence validated by `eval`, with
application spines congruent and invertible pairwise along the zip of the
two spines (as the source decomposes them), and Π-types congruent and
invertible componentwise under a common instantiation. -/
structure EquivHyps (E : Term → Term → Prop) : Prop where
  hrefl : ∀ t, E t t
  hsymm : ∀ {a b}, E a b → E b a
  htrans : ∀ {a b c}, E a b → E b c → E a c
  heval : ∀ (cx : TyCtxt) (t t' : Term), cx.evalT t = .ok t' → E t t'
  hspine : ∀ (t u : Term) (ta ua : List Term), t.head = u.head →
    t.args = some ta → u.args = some ua →
    ((∀ p ∈ ta.zip ua, E p.1 p.2) ↔ E t u)
  hpi : ∀ (nm1 nm2 : String) (A A' B B' l : Term),
    (E A A' ∧ E (B.instantiate l) (B'.instantiate l)) ↔
      E (Term.pi nm1 A B) (Term.pi nm2 A' B')

theorem simplify_sound_complete (E : Term → Term → Prop) (hE : EquivHyps E) :
    ∀ fuel : Nat,
      (∀ (cx : TyCtxt) (sols : SolutionMap) (t u : Term) (j : Justification)
         (cs : List CategorizedConstraint) (cx' : TyCtxt),
         simplify fuel cx sols t u j = .ok (cs, cx') →
         ((∀ c ∈ cs, HoldsE E c) ↔ E t u)) ∧
      (∀ (cx : TyCtxt) (sols : SolutionMap) (ps : List (Term × Term)) (j : Justification)
         (cs : List CategorizedConstraint) (cx' : TyCtxt),
         simplifySpines fuel cx sols ps j = .ok (cs, cx') →
         ((∀ c ∈ cs, HoldsE E c) ↔ ∀ p ∈ ps, E p.1 p.2)) := by
  intro fuel
  induction fuel with
  | zero =>
      constructor
      · intro cx sols t u j cs cx' h
        simp [simplify] at h
      · intro cx sols ps j cs cx' h
        cases ps with
        | nil =>
            simp only [simplifySpines] at h
            simp only [Except.ok.injEq, Prod.mk.injEq] at h
            obtain ⟨h1, -⟩ := h
            subst h1
            simp
        | cons p rest => simp [simplifySpines] at h
  | succ fuel ih =>
      obtain ⟨ihS, ihL⟩ := ih
      constructor
      · intro cx sols t u j cs cx' h
        rw [simplify] at h
        delta simplifyBody at h
        split_ifs at h with heq hredt hredu hlocal hglobal hforall hstuck
        · -- reflexive
          subst heq
          simp only [Except.ok.injEq, Prod.mk.injEq] at h
          obtain ⟨h1, -⟩ := h
          subst h1
          simp [hE.hrefl]
        · -- reduce left
          split at h
          · simp at h
          · rename_i t' heval
            have iff1 := ihS _ _ _ _ _ _ _ h
            have het := hE.heval cx t t' heval
            exact iff1.trans
              ⟨fun h' => hE.htrans het h', fun h' => hE.htrans (hE.hsymm het) h'⟩
        · -- reduce right
          split at h
          · simp at h
          · rename_i u' heval
            have iff1 := ihS _ _ _ _ _ _ _ h
            have het := hE.heval cx u u' heval
            exact iff1.trans
              ⟨fun h' => hE.htrans h' (hE.hsymm het), fun h' => hE.htrans h' het⟩
        · -- rigid-rigid local heads
          rw [Bool.and_eq_true, Bool.and_eq_true, decide_eq_true_eq] at hlocal
          obtain ⟨⟨hl1, hl2⟩, hl3⟩ := hlocal
          split at h
          · rename_i ta ua hta hua
            have iff1 := ihL _ _ _ _ _ _ h
            exact iff1.trans (hE.hspine t u ta ua hl3 hta hua)
          · simp at h
        · -- rigid-rigid global heads
          rw [Bool.and_eq_true, Bool.and_eq_true, decide_eq_true_eq] at hglobal
          obtain ⟨⟨hg1, hg2⟩, hg3⟩ := hglobal
          split at h
          · split at h
            · split_ifs at h with hred
              · simp only [Bool.and_eq_true] at h
                split at h <;> simp at h
              · split at h
                · rename_i ta ua hta hua
                  simp only [Except.ok.injEq, Prod.mk.injEq] at h
                  obtain ⟨h1, -⟩ := h
                  subst h1
                  refine Iff.trans ?_ (hE.hspine t u ta ua hg3 hta hua)
                  simp only [List.mem_map, Prod.exists, forall_exists_index,
                    and_imp, Prod.forall]
                  constructor
                  · intro hyp a b hm
                    exact hyp _ a b hm rfl
                  · intro hyp c a b hm hc
                    subst hc
                    exact hyp a b hm
                · simp at h
            · simp at h
          · simp at h
        · -- Π-Π decomposition
          split at h
          · rename_i nm1 ty1 term1 nm2 ty2 term2
            split at h
            rename_i l cx1 hlc
            split at h
            · simp at h
            · rename_i hrec1
              split at h
              · simp at h
              · rename_i hrec2
                simp only [Except.ok.injEq, Prod.mk.injEq] at h
                obtain ⟨h1, -⟩ := h
                subst h1
                have iffA := ihS _ _ _ _ _ _ _ hrec1
                have iffB := ihS _ _ _ _ _ _ _ hrec2
                refine Iff.trans ?_ (hE.hpi nm1 nm2 ty1 ty2 term1 term2 l.to_term)
                rw [List.forall_mem_append]
                exact iffA.and iffB
          · simp at h
        · -- stuck: the constraint is returned as-is
          simp only [Except.ok.injEq, Prod.mk.injEq] at h
          obtain ⟨h1, -⟩ := h
          subst h1
          simp [HoldsE_categorize]
        · -- irreconcilable mismatch: no ok result
          split at h <;> simp at h
      · intro cx sols ps j cs cx' h
        cases ps with
        | nil =>
            simp only [simplifySpines] at h
            simp only [Except.ok.injEq, Prod.mk.injEq] at h
            obtain ⟨h1, -⟩ := h
            subst h1
            simp
        | cons p rest =>
            obtain ⟨s, r⟩ := p
            rw [simplifySpines] at h
            split at h
            · simp at h
            · rename_i hrec1
              split at h
              · simp at h
              · rename_i hrec2
                simp only [Except.ok.injEq, Prod.mk.injEq] at h
                obtain ⟨h1, -⟩ := h
                subst h1
                have iff1 := ihS _ _ _ _ _ _ _ hrec1
                have iff2 := ihL _ _ _ _ _ _ hrec2
                rw [List.forall_mem_append]
                simp only [List.mem_cons, forall_eq_or_imp]
                exact iff1.and iff2

theorem is_bi_reducible_pi (cx : TyCtxt) (nm : String) (A B : Term) :
    cx.is_bi_reducible (.pi nm A B) = false := rfl

theorem head_is_local_pi (nm : String) (A B : Term) :
    (Term.pi nm A B).head_is_local = false := rfl

theorem head_is_global_pi (nm : String) (A B : Term) :
    (Term.pi nm A B).head_is_global = false := rfl

/-- C7: `simplify` on two unequal Π-types `Π(x:A).B ≡ Π(x:A').B'` mints a
single fresh local `l` (the next local counter value, shared by both
bodies), returns the constraints of `simplify A A'` followed by those of
`simplify B[l/x] B'[l/x]`, and — for every equality notion `E` satisfying
`EquivHyps` — the conjunction of the returned constraints is equivalent to
`E A A' ∧ E B[l/x] B'[l/x]`. -/
theorem simplify_pi_decomposition
    (fuel : Nat) (cx : TyCtxt) (sols : SolutionMap) (nm1 nm2 : String)
    (A A' B B' : Term) (j : Justification)
    (cs : List CategorizedConstraint) (cx' : TyCtxt)
    (hne : Term.pi nm1 A B ≠ Term.pi nm2 A' B')
    (hok : simplify (fuel + 1) cx sols (.pi nm1 A B) (.pi nm2 A' B') j = .ok (cs, cx')) :
    (∃ csA cxA csB,
       simplify fuel { cx with next_local := cx.next_local + 1 } sols A A' j =
         .ok (csA, cxA) ∧
       simplify fuel cxA sols
         (B.instantiate (Name.lcl cx.next_local nm1 A).to_term)
         (B'.instantiate (Name.lcl cx.next_local nm1 A).to_term) j =
         .ok (csB, cx') ∧
       cs = csA ++ csB) ∧
    (∀ E : Term → Term → Prop, EquivHyps E →
       ((∀ c ∈ cs, HoldsE E c) ↔
         (E A A' ∧
          E (B.instantiate (Name.lcl cx.next_local nm1 A).to_term)
            (B'.instantiate (Name.lcl cx.next_local nm1 A).to_term)))) := by
  rw [simplify] at hok
  delta simplifyBody at hok
  rw [if_neg hne] at hok
  simp only [is_bi_reducible_pi, head_is_local_pi, head_is_global_pi,
    Bool.false_eq_true, if_false, Bool.false_and, Term.is_forall,
    Bool.and_self, if_true, TyCtxt.local_with_repr] at hok
  have hmain : ∃ csA cxA csB,
      simplify fuel { cx with next_local := cx.next_local + 1 } sols A A' j =
        .ok (csA, cxA) ∧
      simplify fuel cxA sols
        (B.instantiate (Name.lcl cx.next_local nm1 A).to_term)
        (B'.instantiate (Name.lcl cx.next_local nm1 A).to_term) j =
        .ok (csB, cx') ∧
      cs = csA ++ csB := by
    split at hok
    · simp at hok
    · rename_i hrec1
      split at hok
      · simp at hok
      · rename_i hrec2
        simp only [Except.ok.injEq, Prod.mk.injEq] at hok
        obtain ⟨h1, h2⟩ := hok
        subst h2
        exact ⟨_, _, _, hrec1, hrec2, h1.symm⟩
  refine ⟨hmain, ?_⟩
  intro E hEq
  obtain ⟨csA, cxA, csB, hrec1, hrec2, hcs⟩ := hmain
  subst hcs
  have iffA := (simplify_sound_complete E hEq fuel).1 _ _ _ _ _ _ _ hrec1
  have iffB := (simplify_sound_complete E hEq fuel).1 _ _ _ _ _ _ _ hrec2
  rw [List.forall_mem_append]
  exact iffA.and iffB

/-- C7 witness: the concrete decomposition of
`Π(x:Type).#0 ≡ Π(y:Type).#0` from an empty context: both recursive
simplifications succeed with no residual constraints. -/
theorem simplify_pi_decomposition_witness :
    ∃ (csA : List CategorizedConstraint) (cxA : TyCtxt) (csB : List CategorizedConstraint),
      simplify 1 { definitions := [], declarations := [], importable := [], next_local := 1 }
          [] .typeU .typeU .assumption = .ok (csA, cxA) ∧
      simplify 1 cxA []
        ((Term.bound 0).instantiate (Name.lcl 0 "x" .typeU).to_term)
        ((Term.bound 0).instantiate (Name.lcl 0 "x" .typeU).to_term) .assumption =
        .ok (csB, { definitions := [], declarations := [], importable := [], next_local := 1 }) ∧
      ([] : List CategorizedConstraint) = csA ++ csB :=
  (simplify_pi_decomposition 1 ⟨[], [], [], 0⟩ [] "x" "y" .typeU .typeU
    (.bound 0) (.bound 0) .assumption [] ⟨[], [], [], 1⟩ (by decide) rfl).1

end Hubris
